import Mathlib

/-!
Verification development for the Commodore PET BASIC tokenizer
(`tokenize-4.0.py`): a shallow embedding of the keyword table, the line
tokenizer and the PRG program builder, together with theorems about the
properties the design document states.

Bytes are modelled as `Nat` (the Python code works with `bytearray`
elements; `struct.pack('<H', v)` requires `v < 65536`, which the theorems
about link addresses carry as an explicit hypothesis).  Strings are
modelled through their character lists.
-/

/-- The `TOKENS` dictionary of the source: PET BASIC 2.0 tokens plus the
BASIC 4.0 disk-command additions, in the source's insertion order. -/
def TOKENS : List (String × Nat) := [
  ("END", 0x80), ("FOR", 0x81), ("NEXT", 0x82), ("DATA", 0x83), ("INPUT#", 0x84),
  ("INPUT", 0x85), ("DIM", 0x86), ("READ", 0x87), ("LET", 0x88), ("GOTO", 0x89),
  ("RUN", 0x8A), ("IF", 0x8B), ("RESTORE", 0x8C), ("GOSUB", 0x8D), ("RETURN", 0x8E),
  ("REM", 0x8F), ("STOP", 0x90), ("ON", 0x91), ("WAIT", 0x92), ("LOAD", 0x93),
  ("SAVE", 0x94), ("VERIFY", 0x95), ("DEF", 0x96), ("POKE", 0x97), ("PRINT#", 0x98),
  ("PRINT", 0x99), ("CONT", 0x9A), ("LIST", 0x9B), ("CLR", 0x9C), ("CMD", 0x9D),
  ("SYS", 0x9E), ("OPEN", 0x9F), ("CLOSE", 0xA0), ("GET", 0xA1), ("NEW", 0xA2),
  ("TAB(", 0xA3), ("TO", 0xA4), ("FN", 0xA5), ("SPC(", 0xA6), ("THEN", 0xA7),
  ("NOT", 0xA8), ("STEP", 0xA9), ("+", 0xAA), ("-", 0xAB), ("*", 0xAC), ("/", 0xAD),
  ("^", 0xAE), ("AND", 0xAF), ("OR", 0xB0), (">", 0xB1), ("=", 0xB2), ("<", 0xB3),
  ("SGN", 0xB4), ("INT", 0xB5), ("ABS", 0xB6), ("USR", 0xB7), ("FRE", 0xB8),
  ("POS", 0xB9), ("SQR", 0xBA), ("RND", 0xBB), ("LOG", 0xBC), ("EXP", 0xBD),
  ("COS", 0xBE), ("SIN", 0xBF), ("TAN", 0xC0), ("ATN", 0xC1), ("PEEK", 0xC2),
  ("LEN", 0xC3), ("STR$", 0xC4), ("VAL", 0xC5), ("ASC", 0xC6), ("CHR$", 0xC7),
  ("LEFT$", 0xC8), ("RIGHT$", 0xC9), ("MID$", 0xCA),
  ("CONCAT", 0xCC), ("DOPEN", 0xCD), ("DCLOSE", 0xCE), ("RECORD", 0xCF),
  ("HEADER", 0xD0), ("COLLECT", 0xD1), ("BACKUP", 0xD2), ("COPY", 0xD3),
  ("APPEND", 0xD4), ("DSAVE", 0xD5), ("DLOAD", 0xD6), ("CATALOG", 0xD7),
  ("RENAME", 0xD8), ("SCRATCH", 0xD9), ("DIRECTORY", 0xDA)]

/-- Lexicographic string comparison by code point — the order Python uses
when comparing `str` values. -/
def strLtB : List Char → List Char → Bool
  | [], [] => false
  | [], _ :: _ => true
  | _ :: _, [] => false
  | a :: as, b :: bs =>
    if a.toNat < b.toNat then true
    else if b.toNat < a.toNat then false
    else strLtB as bs

/-- The comparison realising Python's sort key `(-len(x[0]), x[0])`:
longer spellings first, ties broken by ascending string order. -/
def tokenLe (a b : String × Nat) : Bool :=
  decide (b.1.length < a.1.length) ||
    (decide (a.1.length = b.1.length) && !(strLtB b.1.data a.1.data))

/-- Insertion step of a stable insertion sort under `tokenLe`. -/
def insertToken (a : String × Nat) : List (String × Nat) → List (String × Nat)
  | [] => [a]
  | b :: l => if tokenLe a b then a :: b :: l else b :: insertToken a l

/-- Stable insertion sort under `tokenLe`, embedding Python's `sorted`. -/
def sortTokens : List (String × Nat) → List (String × Nat)
  | [] => []
  | a :: l => insertToken a (sortTokens l)

/-- Embeds `SORTED_TOKENS = sorted(TOKENS.items(), key=lambda x: (-len(x[0]), x[0]))`. -/
def SORTED_TOKENS : List (String × Nat) := sortTokens TOKENS

/-- Embeds `line_text[i:i+len(token_name)].upper() == token_name`, with the
scan suffix `cs` standing for `line_text[i:]`. -/
def tokenMatches (cs : List Char) (name : String) : Bool :=
  (cs.take name.length).map Char.toUpper == name.data

/-- Embeds `next_char.isalnum() or next_char in '$%'`. -/
def isWordChar (c : Char) : Bool := c.isAlphanum || c == '$' || c == '%'

/-- The word-boundary test of the source: an alphabetic-initial keyword is
rejected when the character just after the matched span is alphanumeric or
`$`/`%`; symbol keywords have no boundary check. -/
def boundaryOk (cs : List Char) (name : String) : Bool :=
  if (name.data.headD 'A').isAlpha then
    match cs.drop name.length with
    | [] => true
    | nc :: _ => !(isWordChar nc)
  else true

/-- The `for token_name, token_value in SORTED_TOKENS` loop body: the first
candidate that matches the text and passes the boundary test. -/
def matchTokenIn (cs : List Char) : List (String × Nat) → Option (String × Nat)
  | [] => none
  | (name, value) :: ts =>
    if tokenMatches cs name && boundaryOk cs name then some (name, value)
    else matchTokenIn cs ts

/-- Keyword matching at the head of the scan suffix `cs`. -/
def matchToken (cs : List Char) : Option (String × Nat) :=
  matchTokenIn cs SORTED_TOKENS

/-- Embeds `while i < len(line_text) and line_text[i] == ' ': i += 1`. -/
def skipSpaces : List Char → List Char
  | [] => []
  | c :: cs => if c = ' ' then skipSpaces cs else c :: cs

/-- The scan loop of `tokenize_line`, with explicit fuel so that the
definition is structurally recursive (each iteration consumes at least one
character, so fuel `cs.length` is always sufficient); `cs` is the unread
suffix of the line. -/
def tokenizeFuel : Nat → List Char → Bool → Bool → List Nat
  | 0, _, _, _ => []
  | _ + 1, [], _, _ => []
  | fuel + 1, c :: rest, in_quote, in_rem =>
    if c = '"' then
      c.toNat :: tokenizeFuel fuel rest (!in_quote) in_rem
    else if in_quote || in_rem then
      c.toNat :: tokenizeFuel fuel rest in_quote in_rem
    else
      match matchToken (c :: rest) with
      | some (name, value) =>
        value :: tokenizeFuel fuel (skipSpaces (List.drop (name.length - 1) rest))
          false (name == "REM")
      | none => c.toNat :: tokenizeFuel fuel rest in_quote in_rem

/-- The scan loop started on suffix `cs` with given quote/REM state. -/
def tokenizeAux (cs : List Char) (in_quote in_rem : Bool) : List Nat :=
  tokenizeFuel cs.length cs in_quote in_rem

/-- Tokenize a single BASIC line (`tokenize_line` of the source). -/
def tokenize_line (line_text : String) : List Nat :=
  tokenizeAux line_text.data false false

/-- Embeds `struct.pack('<H', v)`: two little-endian bytes (the Python call
raises for `v ≥ 65536`; theorems about addresses assume the in-range
case explicitly). -/
def pack16 (v : Nat) : List Nat := [v % 256, v / 256 % 256]

/-- Embeds `struct.pack_into('<H', buf, off, v)`: overwrite two bytes at `off`. -/
def pack_into16 (buf : List Nat) (off v : Nat) : List Nat :=
  buf.take off ++ pack16 v ++ buf.drop (off + 2)

/-- One iteration of the `for line_num, line_text in basic_lines` loop of
`create_prg`: reserve the two link bytes, append line number, tokenized
text and the end-of-line zero, then patch the link with
`load_addr + len(prg) - 2`. -/
def create_prg_step (load_addr : Nat) (prg : List Nat) (line : Nat × String) :
    List Nat :=
  let line_start_offset := prg.length
  let prg := prg ++ [0, 0]
  let prg := prg ++ pack16 line.1
  let prg := prg ++ tokenize_line line.2
  let prg := prg ++ [0]
  let next_link_addr := load_addr + prg.length - 2
  pack_into16 prg line_start_offset next_link_addr

/-- Build the PRG image (`create_prg` of the source): load address, then the
patched per-line records, then the two-byte end-of-program marker. -/
def create_prg (basic_lines : List (Nat × String)) (load_addr : Nat) : List Nat :=
  (basic_lines.foldl (create_prg_step load_addr) (pack16 load_addr)) ++ [0, 0]

/-- The `__main__` driver after parsing: an empty line list is reported as
a usage error (`sys.exit(1)` with a message, no output written), otherwise
the PRG image is built with the default load address `0x0401`. -/
def mainBuild (lines : List (Nat × String)) : Except String (List Nat) :=
  if lines.isEmpty then Except.error "No BASIC lines found in input file"
  else Except.ok (create_prg lines 0x0401)

/-- Specification-level per-line record list (§4.3 of the design document):
starting at file offset `off`, each line contributes
`link ++ lineNumber ++ tokenizedText ++ [0]` with
`link = load + offsetAfterRecord - 2`.  Used to compare `create_prg`
against the documented layout. -/
def specRecords (load : Nat) : Nat → List (Nat × String) → List Nat
  | _, [] => []
  | off, (n, t) :: ls =>
    pack16 (load + off + (tokenize_line t).length + 3) ++ pack16 n ++
      tokenize_line t ++ [0] ++
      specRecords load (off + (tokenize_line t).length + 5) ls

/-- Total size of the per-line records of a line list. -/
def sizeLines : List (Nat × String) → Nat
  | [] => 0
  | (_, t) :: ls => (tokenize_line t).length + 5 + sizeLines ls

/-- Read the 16-bit little-endian word stored at offset `off` of an image. -/
def readWord (img : List Nat) (off : Nat) : Nat :=
  img.getD off 0 + 256 * img.getD (off + 1) 0

/-- One hop along the link chain: the link stored at file offset `off` is
an absolute address; the corresponding file offset is `addr - load + 2`. -/
def chainHop (img : List Nat) (load off : Nat) : Nat :=
  readWord img off + 2 - load

/-- Perform `k` hops along the link chain starting from file offset `off`. -/
def chainIter (img : List Nat) (load : Nat) : Nat → Nat → Nat
  | 0, off => off
  | k + 1, off => chainIter img load k (chainHop img load off)

/-! ## Basic lemmas about the scan loop -/

theorem skipSpaces_length (l : List Char) : (skipSpaces l).length ≤ l.length := by
  induction l with
  | nil => simp [skipSpaces]
  | cons c cs ih =>
    simp only [skipSpaces]
    split
    · exact Nat.le_succ_of_le ih
    · simp

/-- The fuel argument of `tokenizeFuel` is irrelevant as soon as it covers
the length of the remaining input. -/
theorem tokenizeFuel_congr : ∀ (f g : Nat) (cs : List Char) (q r : Bool),
    cs.length ≤ f → cs.length ≤ g →
    tokenizeFuel f cs q r = tokenizeFuel g cs q r := by
  intro f
  induction f with
  | zero =>
    intro g cs q r hf _
    obtain rfl : cs = [] := List.length_eq_zero.mp (Nat.le_zero.mp hf)
    cases g <;> rfl
  | succ f ih =>
    intro g cs q r hf hg
    cases cs with
    | nil => cases g <;> rfl
    | cons c rest =>
      cases g with
      | zero => simp at hg
      | succ g =>
        have hf' : rest.length ≤ f := by simpa using hf
        have hg' : rest.length ≤ g := by simpa using hg
        simp only [tokenizeFuel]
        by_cases hc : c = '"'
        · simp only [if_pos hc]
          rw [ih g rest _ _ hf' hg']
        · simp only [if_neg hc]
          by_cases hqr : (q || r) = true
          · simp only [if_pos hqr]
            rw [ih g rest _ _ hf' hg']
          · simp only [if_neg hqr]
            cases hm : matchToken (c :: rest) with
            | none =>
              show c.toNat :: tokenizeFuel f rest q r = c.toNat :: tokenizeFuel g rest q r
              rw [ih g rest _ _ hf' hg']
            | some p =>
              obtain ⟨name, value⟩ := p
              have hlen : (skipSpaces (List.drop (name.length - 1) rest)).length ≤
                  rest.length :=
                le_trans (skipSpaces_length _) (by simp)
              show value :: tokenizeFuel f (skipSpaces (List.drop (name.length - 1) rest))
                    false (name == "REM")
                  = value :: tokenizeFuel g (skipSpaces (List.drop (name.length - 1) rest))
                    false (name == "REM")
              rw [ih g _ _ _ (le_trans hlen hf') (le_trans hlen hg')]

theorem tokenizeAux_nil (q r : Bool) : tokenizeAux [] q r = [] := rfl

theorem tokenizeAux_quote (rest : List Char) (q r : Bool) :
    tokenizeAux ('"' :: rest) q r = 34 :: tokenizeAux rest (!q) r := by
  simp only [tokenizeAux, List.length_cons, tokenizeFuel, if_pos rfl]
  rfl

theorem tokenizeAux_copy (c : Char) (rest : List Char) (q r : Bool)
    (hc : c ≠ '"') (hqr : (q || r) = true) :
    tokenizeAux (c :: rest) q r = c.toNat :: tokenizeAux rest q r := by
  simp only [tokenizeAux, List.length_cons, tokenizeFuel, if_neg hc, if_pos hqr]

theorem tokenizeAux_match (c : Char) (rest : List Char) (name : String) (value : Nat)
    (hc : c ≠ '"') (hm : matchToken (c :: rest) = some (name, value)) :
    tokenizeAux (c :: rest) false false
      = value :: tokenizeAux (skipSpaces (List.drop (name.length - 1) rest))
          false (name == "REM") := by
  have hlen : (skipSpaces (List.drop (name.length - 1) rest)).length ≤ rest.length :=
    le_trans (skipSpaces_length _) (by simp)
  simp only [tokenizeAux, List.length_cons, tokenizeFuel, if_neg hc, Bool.or_self,
    Bool.false_eq_true, if_false, hm]
  exact congrArg _ (tokenizeFuel_congr rest.length _ _ _ _ hlen le_rfl)

theorem tokenizeAux_nomatch (c : Char) (rest : List Char)
    (hc : c ≠ '"') (hm : matchToken (c :: rest) = none) :
    tokenizeAux (c :: rest) false false = c.toNat :: tokenizeAux rest false false := by
  simp only [tokenizeAux, List.length_cons, tokenizeFuel, if_neg hc, Bool.or_self,
    Bool.false_eq_true, if_false, hm]

/-! ## Lemmas about keyword matching -/

/-- A successful match comes from the candidate list and satisfies both the
substring test and the boundary test. -/
theorem matchTokenIn_some : ∀ (ts : List (String × Nat)) (cs : List Char)
    (p : String × Nat), matchTokenIn cs ts = some p →
    p ∈ ts ∧ tokenMatches cs p.1 = true ∧ boundaryOk cs p.1 = true := by
  intro ts
  induction ts with
  | nil => intro cs p h; simp [matchTokenIn] at h
  | cons a ts ih =>
    intro cs p h
    obtain ⟨name, value⟩ := a
    simp only [matchTokenIn] at h
    by_cases hcond : (tokenMatches cs name && boundaryOk cs name) = true
    · rw [if_pos hcond] at h
      obtain rfl : (name, value) = p := Option.some.inj h
      obtain ⟨h1, h2⟩ := Bool.and_eq_true_iff.mp hcond
      exact ⟨List.mem_cons_self _ _, h1, h2⟩
    · rw [if_neg hcond] at h
      obtain ⟨hmem, h1, h2⟩ := ih cs p h
      exact ⟨List.mem_cons_of_mem _ hmem, h1, h2⟩

/-- The matching loop is exactly a first-match search over the candidate
list. -/
theorem matchTokenIn_eq_find : ∀ (ts : List (String × Nat)) (cs : List Char),
    matchTokenIn cs ts
      = ts.find? (fun p => tokenMatches cs p.1 && boundaryOk cs p.1) := by
  intro ts
  induction ts with
  | nil => intro cs; rfl
  | cons a ts ih =>
    intro cs
    obtain ⟨name, value⟩ := a
    by_cases hcond : (tokenMatches cs name && boundaryOk cs name) = true
    · simp only [matchTokenIn, if_pos hcond]
      exact (List.find?_cons_of_pos ts (by simpa using hcond)).symm
    · simp only [matchTokenIn, if_neg hcond]
      rw [ih cs]
      exact (List.find?_cons_of_neg ts (by simpa using hcond)).symm

/-! ## The sorted candidate list is a permutation of the table -/

theorem insertToken_perm (a : String × Nat) :
    ∀ l, (insertToken a l).Perm (a :: l) := by
  intro l
  induction l with
  | nil => exact List.Perm.refl _
  | cons b l ih =>
    simp only [insertToken]
    split
    · exact List.Perm.refl _
    · exact (ih.cons b).trans (List.Perm.swap a b l)

theorem sortTokens_perm : ∀ l, (sortTokens l).Perm l := by
  intro l
  induction l with
  | nil => exact List.Perm.refl _
  | cons a l ih => exact (insertToken_perm a (sortTokens l)).trans (ih.cons a)

theorem SORTED_TOKENS_perm : SORTED_TOKENS.Perm TOKENS := sortTokens_perm TOKENS

/-- Every spelling in the table is non-empty. -/
theorem TOKENS_names_nonempty : ∀ p ∈ TOKENS, 1 ≤ p.1.length := by decide

theorem mem_SORTED_TOKENS {p : String × Nat} (h : p ∈ SORTED_TOKENS) : p ∈ TOKENS :=
  SORTED_TOKENS_perm.mem_iff.mp h

/-! ## Copying behaviour inside quotes and after REM -/

/-- Once `in_rem` is set, every remaining character is copied verbatim. -/
theorem tokenizeAux_rem_copy : ∀ (cs : List Char) (q : Bool),
    tokenizeAux cs q true = cs.map Char.toNat := by
  intro cs
  induction cs with
  | nil => intro q; rfl
  | cons c rest ih =>
    intro q
    by_cases hc : c = '"'
    · subst hc
      rw [tokenizeAux_quote, ih]
      rfl
    · rw [tokenizeAux_copy c rest q true hc (by simp), ih]
      rfl

/-- While `in_quote` is set, characters up to the closing quote are copied
verbatim. -/
theorem tokenizeAux_inquote_copy : ∀ (body : List Char), '"' ∉ body →
    ∀ (tail : List Char) (r : Bool),
    tokenizeAux (body ++ tail) true r
      = body.map Char.toNat ++ tokenizeAux tail true r := by
  intro body
  induction body with
  | nil => intro _ tail r; simp
  | cons c b ih =>
    intro hmem tail r
    have hc : c ≠ '"' := fun h => hmem (by simp [h])
    rw [List.cons_append, tokenizeAux_copy c (b ++ tail) true r hc (by simp),
      ih (fun h => hmem (List.mem_cons_of_mem _ h)) tail r]
    simp

/-- Bytes never outnumber input characters (each loop step consumes at
least one character and emits at most one byte). -/
theorem tokenizeFuel_length_le : ∀ (f : Nat) (cs : List Char) (q r : Bool),
    (tokenizeFuel f cs q r).length ≤ cs.length := by
  intro f
  induction f with
  | zero => intro cs q r; simp [tokenizeFuel]
  | succ f ih =>
    intro cs q r
    cases cs with
    | nil => simp [tokenizeFuel]
    | cons c rest =>
      simp only [tokenizeFuel]
      by_cases hc : c = '"'
      · simp only [if_pos hc, List.length_cons]
        exact Nat.succ_le_succ (ih rest _ _)
      · simp only [if_neg hc]
        by_cases hqr : (q || r) = true
        · simp only [if_pos hqr, List.length_cons]
          exact Nat.succ_le_succ (ih rest _ _)
        · simp only [if_neg hqr]
          cases hm : matchToken (c :: rest) with
          | none =>
            show (c.toNat :: tokenizeFuel f rest q r).length ≤ (c :: rest).length
            simp only [List.length_cons]
            exact Nat.succ_le_succ (ih rest _ _)
          | some p =>
            obtain ⟨name, value⟩ := p
            show (value :: tokenizeFuel f (skipSpaces (List.drop (name.length - 1) rest))
                false (name == "REM")).length ≤ (c :: rest).length
            have h1 := ih (skipSpaces (List.drop (name.length - 1) rest)) false
              (name == "REM")
            have h2 : (skipSpaces (List.drop (name.length - 1) rest)).length ≤
                rest.length :=
              le_trans (skipSpaces_length _) (by simp)
            simp only [List.length_cons]
            omega

/-! ## List helpers for the byte-buffer reasoning -/

theorem take_len_append {α : Type} (a b : List α) : (a ++ b).take a.length = a := by
  induction a with
  | nil => simp
  | cons x a ih => simp [ih]

theorem drop_len_plus {α : Type} (a b : List α) (k : Nat) :
    (a ++ b).drop (a.length + k) = b.drop k := by
  induction a with
  | nil => simp
  | cons x a ih =>
    simp only [List.cons_append, List.length_cons]
    rw [Nat.succ_add]
    exact ih

theorem drop_len {α : Type} (a b : List α) : (a ++ b).drop a.length = b := by
  simp

theorem getD_len_plus (a b : List Nat) (k : Nat) :
    (a ++ b).getD (a.length + k) 0 = b.getD k 0 := by
  induction a with
  | nil => simp
  | cons x a ih =>
    simp only [List.cons_append, List.length_cons]
    rw [Nat.succ_add]
    simpa using ih

/-! ## Structure of the built image -/

/-- Reserving the link slot, appending the record tail and patching the
slot is the same as emitting the finished record in one piece. -/
theorem create_prg_step_eq (load_addr : Nat) (prg : List Nat) (n : Nat) (t : String) :
    create_prg_step load_addr prg (n, t)
      = prg ++ pack16 (load_addr + prg.length + (tokenize_line t).length + 3)
          ++ pack16 n ++ tokenize_line t ++ [0] := by
  have harr : prg ++ [0, 0] ++ pack16 n ++ tokenize_line t ++ [0]
      = prg ++ ([0, 0] ++ (pack16 n ++ tokenize_line t ++ [0])) := by
    simp [List.append_assoc]
  simp only [create_prg_step, pack_into16]
  rw [harr, take_len_append]
  have hdrop : (prg ++ ([0, 0] ++ (pack16 n ++ tokenize_line t ++ [0]))).drop
      (prg.length + 2) = pack16 n ++ tokenize_line t ++ [0] := by
    rw [drop_len_plus]
    rfl
  rw [hdrop]
  have hlen : load_addr +
      (prg ++ ([0, 0] ++ (pack16 n ++ tokenize_line t ++ [0]))).length - 2
      = load_addr + prg.length + (tokenize_line t).length + 3 := by
    simp [pack16]
    omega
  rw [hlen]
  simp [List.append_assoc]

/-- Folding the per-line step over the lines appends exactly the
specification-level records, offset by the current buffer length. -/
theorem foldl_create_prg_step : ∀ (lines : List (Nat × String)) (load : Nat)
    (prg : List Nat),
    List.foldl (create_prg_step load) prg lines
      = prg ++ specRecords load prg.length lines := by
  intro lines
  induction lines with
  | nil => intro load prg; simp [specRecords]
  | cons p ls ih =>
    intro load prg
    obtain ⟨n, t⟩ := p
    rw [List.foldl_cons, create_prg_step_eq, ih]
    have hlen : (prg ++ pack16 (load + prg.length + (tokenize_line t).length + 3)
        ++ pack16 n ++ tokenize_line t ++ [0]).length
        = prg.length + (tokenize_line t).length + 5 := by
      simp [pack16]
      omega
    rw [hlen]
    simp only [specRecords, List.append_assoc]

/-- The builder produces the load address, the record list and the
end-of-program sentinel. -/
theorem create_prg_eq (basic_lines : List (Nat × String)) (load_addr : Nat) :
    create_prg basic_lines load_addr
      = pack16 load_addr ++ specRecords load_addr 2 basic_lines ++ [0, 0] := by
  rw [create_prg, foldl_create_prg_step]
  have h2 : (pack16 load_addr).length = 2 := rfl
  rw [h2]

theorem specRecords_length (load : Nat) :
    ∀ (ls : List (Nat × String)) (off : Nat),
    (specRecords load off ls).length = sizeLines ls := by
  intro ls
  induction ls with
  | nil => intro off; rfl
  | cons p ls ih =>
    intro off
    obtain ⟨n, t⟩ := p
    simp only [specRecords, sizeLines, List.length_append, ih, pack16]
    simp
    omega

theorem create_prg_length (basic_lines : List (Nat × String)) (load_addr : Nat) :
    (create_prg basic_lines load_addr).length = 4 + sizeLines basic_lines := by
  rw [create_prg_eq]
  simp [pack16, specRecords_length]
  omega

/-! ## Reading link words back from the image -/

theorem readWord_at (a : List Nat) (v : Nat) (b : List Nat) (hv : v < 65536) :
    readWord (a ++ pack16 v ++ b) a.length = v := by
  have h0 : (a ++ pack16 v ++ b).getD a.length 0 = v % 256 := by
    have h := getD_len_plus a (pack16 v ++ b) 0
    simpa [pack16] using h
  have h1 : (a ++ pack16 v ++ b).getD (a.length + 1) 0 = v / 256 % 256 := by
    have h := getD_len_plus a (pack16 v ++ b) 1
    simpa [pack16] using h
  rw [readWord, h0, h1]
  have hd : v / 256 % 256 = v / 256 := Nat.mod_eq_of_lt (by omega)
  rw [hd]
  omega

theorem readWord_sentinel (a : List Nat) : readWord (a ++ [0, 0]) a.length = 0 := by
  have h0 : (a ++ [0, 0]).getD a.length 0 = 0 := by
    have h := getD_len_plus a [0, 0] 0
    simpa using h
  have h1 : (a ++ [0, 0]).getD (a.length + 1) 0 = 0 := by
    have h := getD_len_plus a [0, 0] 1
    simpa using h
  rw [readWord, h0, h1]

/-- Core of the link-chain invariant, by induction over the remaining lines
with a generalized prefix: hopping through the records placed after `pre`
lands on the sentinel after exactly one hop per line, each stored link is
the absolute address of the next link field, and offsets grow strictly and
stay inside the record area. -/
theorem chain_core : ∀ (lines : List (Nat × String)) (pre : List Nat) (load : Nat)
    (img : List Nat),
    img = pre ++ specRecords load pre.length lines ++ [0, 0] →
    load + pre.length + sizeLines lines ≤ 65537 →
    chainIter img load lines.length pre.length = pre.length + sizeLines lines
    ∧ ∀ k, k < lines.length →
        readWord img (chainIter img load k pre.length)
          = load + chainIter img load (k + 1) pre.length - 2
        ∧ chainIter img load k pre.length < chainIter img load (k + 1) pre.length
        ∧ chainIter img load (k + 1) pre.length ≤ pre.length + sizeLines lines := by
  intro lines
  induction lines with
  | nil =>
    intro pre load img _ _
    constructor
    · simp [chainIter, sizeLines]
    · intro k hk
      simp at hk
  | cons p ls ih =>
    intro pre load img himg hfit
    obtain ⟨n, t⟩ := p
    have hfit' : load + pre.length + ((tokenize_line t).length + 5 + sizeLines ls)
        ≤ 65537 := by
      simpa [sizeLines] using hfit
    have hvlt : load + pre.length + (tokenize_line t).length + 3 < 65536 := by omega
    have himg2 : img = pre ++
        pack16 (load + pre.length + (tokenize_line t).length + 3) ++
        (pack16 n ++ tokenize_line t ++ [0] ++
          (specRecords load (pre.length + (tokenize_line t).length + 5) ls ++
            [0, 0])) := by
      rw [himg]
      simp [specRecords, List.append_assoc]
    have h0 : readWord img pre.length
        = load + pre.length + (tokenize_line t).length + 3 := by
      rw [himg2]
      exact readWord_at pre _ _ hvlt
    have hhop : chainHop img load pre.length
        = pre.length + (tokenize_line t).length + 5 := by
      rw [chainHop, h0]
      omega
    have hstep : ∀ k, chainIter img load (k + 1) pre.length
        = chainIter img load k (pre.length + (tokenize_line t).length + 5) := by
      intro k
      show chainIter img load k (chainHop img load pre.length) = _
      rw [hhop]
    have hpre : (pre ++ pack16 (load + pre.length + (tokenize_line t).length + 3)
        ++ pack16 n ++ tokenize_line t ++ [0]).length
        = pre.length + (tokenize_line t).length + 5 := by
      simp [pack16]
      omega
    have hihimg : img = (pre ++
        pack16 (load + pre.length + (tokenize_line t).length + 3)
        ++ pack16 n ++ tokenize_line t ++ [0]) ++
        specRecords load (pre ++
          pack16 (load + pre.length + (tokenize_line t).length + 3)
          ++ pack16 n ++ tokenize_line t ++ [0]).length ls ++ [0, 0] := by
      rw [hpre, himg]
      simp [specRecords, List.append_assoc]
    have hfit2 : load + (pre ++
        pack16 (load + pre.length + (tokenize_line t).length + 3)
        ++ pack16 n ++ tokenize_line t ++ [0]).length + sizeLines ls ≤ 65537 := by
      rw [hpre]
      omega
    obtain ⟨ihA, ihB⟩ := ih _ load img hihimg hfit2
    rw [hpre] at ihA ihB
    constructor
    · show chainIter img load (ls.length + 1) pre.length
        = pre.length + sizeLines ((n, t) :: ls)
      rw [hstep ls.length, ihA]
      simp only [sizeLines]
      omega
    · intro k hk
      cases k with
      | zero =>
        have h1 : chainIter img load 0 pre.length = pre.length := rfl
        have h2 : chainIter img load 1 pre.length
            = pre.length + (tokenize_line t).length + 5 := by
          rw [hstep 0]
          rfl
        rw [h1, h2, h0]
        refine ⟨by omega, by omega, ?_⟩
        simp only [sizeLines]
        omega
      | succ k =>
        have hk' : k < ls.length := by
          simp only [List.length_cons] at hk
          omega
        rw [hstep (k + 1), hstep k]
        obtain ⟨hA, hB, hC⟩ := ihB k hk'
        refine ⟨hA, hB, ?_⟩
        simp only [sizeLines]
        omega

/-! ## Claim theorems -/

/-- C1: for every non-empty line list (and any load address for which the
image's addresses fit in 16 bits, as `struct.pack` requires), every
record's little-endian link field holds the absolute address
`loadAddress + fileOffset - 2` of the next record's link field — for the
last line, of the end-of-chain sentinel — and following the chain from the
first record (file offset 2) reaches the zero sentinel after exactly `N`
hops, every hop strictly forward and inside the image. -/
theorem c1_link_chain (basic_lines : List (Nat × String)) (load_addr : Nat)
    (_hne : basic_lines ≠ [])
    (hfit : load_addr + (create_prg basic_lines load_addr).length ≤ 65539) :
    chainIter (create_prg basic_lines load_addr) load_addr basic_lines.length 2
      = (create_prg basic_lines load_addr).length - 2
    ∧ readWord (create_prg basic_lines load_addr)
        ((create_prg basic_lines load_addr).length - 2) = 0
    ∧ ∀ k, k < basic_lines.length →
        readWord (create_prg basic_lines load_addr)
            (chainIter (create_prg basic_lines load_addr) load_addr k 2)
          = load_addr +
              chainIter (create_prg basic_lines load_addr) load_addr (k + 1) 2 - 2
        ∧ chainIter (create_prg basic_lines load_addr) load_addr k 2
            < chainIter (create_prg basic_lines load_addr) load_addr (k + 1) 2
        ∧ chainIter (create_prg basic_lines load_addr) load_addr (k + 1) 2
            ≤ (create_prg basic_lines load_addr).length - 2 := by
  have hL := create_prg_length basic_lines load_addr
  have heq := create_prg_eq basic_lines load_addr
  have h2 : (pack16 load_addr).length = 2 := rfl
  have hfit2 : load_addr + (pack16 load_addr).length + sizeLines basic_lines
      ≤ 65537 := by
    rw [h2]
    omega
  obtain ⟨hA, hB⟩ := chain_core basic_lines (pack16 load_addr) load_addr
    (create_prg basic_lines load_addr) (by rw [heq, h2]) hfit2
  rw [h2] at hA hB
  have hsub : (create_prg basic_lines load_addr).length - 2
      = 2 + sizeLines basic_lines := by omega
  have hsent : readWord (create_prg basic_lines load_addr)
      ((create_prg basic_lines load_addr).length - 2) = 0 := by
    have himg : create_prg basic_lines load_addr
        = (pack16 load_addr ++ specRecords load_addr 2 basic_lines) ++ [0, 0] := by
      rw [heq, List.append_assoc]
    have hlen2 : (create_prg basic_lines load_addr).length - 2
        = (pack16 load_addr ++ specRecords load_addr 2 basic_lines).length := by
      rw [hsub]
      simp [specRecords_length, pack16]
      omega
    rw [hlen2]
    conv_lhs => rw [himg]
    exact readWord_sentinel _
  refine ⟨?_, hsent, ?_⟩
  · rw [hsub]
    exact hA
  · intro k hk
    rw [hsub]
    exact hB k hk

/-- Witness for C1 at a concrete one-line program. -/
theorem c1_link_chain_witness :
    chainIter (create_prg [(10, "A")] 0x0401) 0x0401 1 2
      = (create_prg [(10, "A")] 0x0401).length - 2 :=
  (c1_link_chain [(10, "A")] 0x0401 (by decide) (by decide)).1

/-- C2 counterexample: the claimed tokenized body of line 10 contains a
literal space byte `0x20` after the PRINT token, but the tokenizer skips
spaces that immediately follow a matched keyword, so the actual body has
no `0x20`. -/
theorem c2_counterexample :
    tokenize_line "PRINT \"HELLO\""
      ≠ [0x99, 0x20, 0x22, 0x48, 0x45, 0x4C, 0x4C, 0x4F, 0x22] := by decide

/-- C2 amended: the concrete scenario's image, with the space after the
PRINT keyword skipped (body `99 22 48 45 4C 4C 4F 22 00`), link bytes
`0E 04` for line 10 (the address right after its record), line-number
bytes `0A 00`, token `0x89` for GOTO in line 20, and final sentinel
`00 00`. -/
theorem c2_hello_goto_image :
    create_prg [(10, "PRINT \"HELLO\""), (20, "GOTO 10")] 0x0401
      = [0x01, 0x04,
         0x0E, 0x04, 0x0A, 0x00, 0x99, 0x22, 0x48, 0x45, 0x4C, 0x4C, 0x4F, 0x22, 0x00,
         0x16, 0x04, 0x14, 0x00, 0x89, 0x31, 0x30, 0x00,
         0x00, 0x00] := by decide

/-- C8: an empty line list is a reported usage error — the driver returns
the error message and builds nothing — while any non-empty list builds the
image with the default load address `0x0401`. -/
theorem c8_empty_input_usage_error :
    mainBuild [] = Except.error "No BASIC lines found in input file"
    ∧ ∀ (l : Nat × String) (ls : List (Nat × String)),
        mainBuild (l :: ls) = Except.ok (create_prg (l :: ls) 0x0401) := by
  exact ⟨rfl, fun l ls => rfl⟩

/-- C9: the image is exactly the 2-byte load address, then one record per
line in input order — link, line number, tokenized bytes, one zero byte —
then the 2-byte zero sentinel; a line with empty text yields a record of
just link, line number and the terminating zero. -/
theorem c9_image_layout :
    (∀ (basic_lines : List (Nat × String)) (load_addr : Nat),
      create_prg basic_lines load_addr
        = pack16 load_addr ++ specRecords load_addr 2 basic_lines ++ [0, 0])
    ∧ ∀ (n load_addr : Nat),
        create_prg [(n, "")] load_addr
          = pack16 load_addr ++ pack16 (load_addr + 5) ++ pack16 n ++ [0]
            ++ [0, 0] := by
  constructor
  · exact create_prg_eq
  · intro n load_addr
    rw [create_prg_eq]
    have htok : tokenize_line "" = [] := rfl
    simp only [specRecords, htok]
    simp

/-- C10: tokenization terminates (the embedding is a total function) and
never lengthens a line: each step copies one character, replaces a
spelling of length at least one by one code byte, or skips spaces without
emitting. -/
theorem c10_output_no_longer (line_text : String) :
    (tokenize_line line_text).length ≤ line_text.length := by
  exact tokenizeFuel_length_le line_text.data.length line_text.data false false

/-- C3 counterexample: `TO` is a word keyword and `PRINT` starts with an
alphanumeric character, yet tokenizing `TOPRINT` is not the literal ASCII
of `TOPRINT` — the trailing `PRINT` reaches end of line, where the
boundary rule does not apply, and is tokenized to `0x99`. -/
theorem c3_counterexample :
    ("TO", 0xA4) ∈ TOKENS ∧ isWordChar 'P' = true
    ∧ tokenize_line "TOPRINT" ≠ "TOPRINT".data.map Char.toNat
    ∧ 0x99 ∈ tokenize_line "TOPRINT" := by decide

/-- C3 amended: for a word keyword `k` followed by an alphanumeric-or-`$%`
character, the matcher at the start of `k ++ c :: s` never selects the
candidate `k` itself — the boundary rule rejects it (other candidates may
still match, so the whole line need not stay literal). -/
theorem c3_boundary_rejects_keyword (k : String) (v : Nat) (c : Char)
    (s : List Char) (w : String × Nat)
    (_hk : (k, v) ∈ TOKENS) (halpha : (k.data.headD 'A').isAlpha = true)
    (hc : isWordChar c = true)
    (hw : matchToken (k.data ++ c :: s) = some w) :
    w.1 ≠ k := by
  intro hcontra
  obtain ⟨_, _, hbound⟩ := matchTokenIn_some _ _ _ hw
  rw [hcontra] at hbound
  have hb2 : boundaryOk (k.data ++ c :: s) k = false := by
    simp only [boundaryOk]
    rw [if_pos halpha]
    have hdrop : (k.data ++ c :: s).drop k.length = c :: s := drop_len k.data (c :: s)
    rw [hdrop]
    simp [hc]
  rw [hb2] at hbound
  exact Bool.false_ne_true hbound

/-- Witness for the amended C3: at `INPUT#` followed by `X`, some match
succeeds (namely `INPUT`), and it is not the candidate `INPUT#` itself. -/
theorem c3_boundary_rejects_keyword_witness : ("INPUT" : String) ≠ "INPUT#" :=
  c3_boundary_rejects_keyword "INPUT#" 0x84 'X' [] ("INPUT", 0x85)
    (by decide) (by decide) (by decide) (by decide)

/-- C4: on a successful keyword match outside quotes and comments the
tokenizer emits exactly the keyword's code byte, advances past the matched
spelling, skips the following run of spaces without emitting them, and if
the keyword is REM the remainder of the line is copied verbatim. -/
theorem c4_match_step (c : Char) (cs : List Char) (name : String) (value : Nat)
    (hc : c ≠ '"') (hm : matchToken (c :: cs) = some (name, value)) :
    tokenizeAux (c :: cs) false false
      = value :: tokenizeAux (skipSpaces (List.drop name.length (c :: cs)))
          false (name == "REM")
    ∧ (name = "REM" →
        tokenizeAux (c :: cs) false false
          = value :: (skipSpaces (List.drop name.length (c :: cs))).map Char.toNat) := by
  have hmem : (name, value) ∈ SORTED_TOKENS := (matchTokenIn_some _ _ _ hm).1
  have hlen : 1 ≤ name.length :=
    TOKENS_names_nonempty _ (mem_SORTED_TOKENS hmem)
  have hdrop : List.drop name.length (c :: cs) = List.drop (name.length - 1) cs := by
    cases hn : name.length with
    | zero => omega
    | succ m => simp
  have hmain := tokenizeAux_match c cs name value hc hm
  rw [hdrop]
  refine ⟨hmain, fun hrem => ?_⟩
  rw [hmain]
  have hb : (name == "REM") = true := by simp [hrem]
  rw [hb, tokenizeAux_rem_copy]

/-- Witness for C4 at the line `REM HI`: the REM token byte followed by
the verbatim copy of the remaining characters. -/
theorem c4_match_step_witness :
    tokenizeAux ('R' :: "EM HI".data) false false = [0x8F, 72, 73] := by
  have h := c4_match_step 'R' "EM HI".data "REM" 0x8F (by decide) (by decide)
  rw [h.2 rfl]
  decide

set_option maxRecDepth 8000 in
/-- C5: tokenizing the bare spelling of any keyword of the table — word,
symbol, or extended — yields exactly its one code byte, and the same holds
for the lowercased spelling (matching is case-insensitive on the source
side). -/
theorem c5_keyword_tokenizes_to_code : ∀ p ∈ TOKENS,
    tokenize_line p.1 = [p.2]
    ∧ tokenizeAux (p.1.data.map Char.toLower) false false = [p.2] := by decide

/-- Witness for C5 at the PRINT keyword. -/
theorem c5_keyword_tokenizes_to_code_witness :
    tokenize_line "PRINT" = [0x99]
    ∧ tokenizeAux ("PRINT".data.map Char.toLower) false false = [0x99] :=
  c5_keyword_tokenizes_to_code ("PRINT", 0x99) (by decide)

/-- C6: characters between double quotes (terminated or not) and all
characters in REM state are copied byte-for-byte with no token
substitution; in particular `"PRINT"` tokenizes to a quote byte, the five
ASCII bytes of PRINT, and a quote byte — never `0x99`. -/
theorem c6_literal_copy :
    (∀ (body rest : List Char) (r : Bool), '"' ∉ body →
      tokenizeAux ('"' :: (body ++ '"' :: rest)) false r
        = 34 :: (body.map Char.toNat ++ 34 :: tokenizeAux rest false r))
    ∧ (∀ (body : List Char) (r : Bool), '"' ∉ body →
      tokenizeAux ('"' :: body) false r = 34 :: body.map Char.toNat)
    ∧ (∀ (cs : List Char) (q : Bool), tokenizeAux cs q true = cs.map Char.toNat)
    ∧ tokenize_line "\"PRINT\"" = [34, 80, 82, 73, 78, 84, 34] := by
  refine ⟨?_, ?_, tokenizeAux_rem_copy, by decide⟩
  · intro body rest r hmem
    rw [tokenizeAux_quote]
    simp only [Bool.not_false]
    rw [tokenizeAux_inquote_copy body hmem ('"' :: rest) r, tokenizeAux_quote]
    simp only [Bool.not_true]
  · intro body r hmem
    rw [tokenizeAux_quote]
    simp only [Bool.not_false]
    have h := tokenizeAux_inquote_copy body hmem [] r
    simp only [List.append_nil, tokenizeAux_nil] at h
    rw [h]

/-- Witness for C6: a quoted string holding the spelling GOTO is copied
literally, and scanning resumes after the closing quote. -/
theorem c6_literal_copy_witness :
    tokenizeAux ('"' :: ("GOTO".data ++ '"' :: "+".data)) false false
      = 34 :: ("GOTO".data.map Char.toNat ++ 34 :: tokenizeAux "+".data false false) :=
  c6_literal_copy.1 "GOTO".data "+".data false (by decide)

set_option maxRecDepth 20000 in
/-- C7: the candidate list is the table sorted by strictly descending
spelling length with ties in ascending lexicographic order (a permutation
of the table), and matching returns the first candidate of that list that
matches and passes the boundary rule. -/
theorem c7_match_order :
    SORTED_TOKENS.Pairwise
      (fun a b => b.1.length < a.1.length
        ∨ (a.1.length = b.1.length ∧ strLtB a.1.data b.1.data = true))
    ∧ SORTED_TOKENS.Perm TOKENS
    ∧ ∀ cs : List Char, matchToken cs
        = SORTED_TOKENS.find? (fun p => tokenMatches cs p.1 && boundaryOk cs p.1) :=
  ⟨by decide, SORTED_TOKENS_perm, fun cs => matchTokenIn_eq_find SORTED_TOKENS cs⟩
